import Mathlib

/-!
Verification of the pixel-classification core of DECIMER-Image-Segmentation
(`decimer_segmentation/complete_structure.py`).

Images (numpy 2-D boolean arrays) are modelled as a height, a width and a
total pixel function; a pixel outside the array bounds is `false`.  The
uint8 working images of the source only ever hold the values 0 and 255,
so they are modelled by the boolean image they are converted back to
(value 255 maps to `true`).  Python float arithmetic on the small integer
inputs of these functions is exact, and is modelled by rational
arithmetic.  External library calls (skimage `rgb2gray` and
`threshold_otsu`, OpenCV `HoughLinesP` and `cv2.line`) are taken as
oracle parameters: the development proves facts about what the repository
code does with their results, not about the libraries themselves.
-/

/-- A 2-D boolean array of shape `(h, w)`: numpy `np.array` of dtype bool.
`pix y x` is the value at row `y`, column `x`; out of bounds it is `false`. -/
structure BImg where
  h : Nat
  w : Nat
  pix : Nat → Nat → Bool

/-- A 2-D rational-valued array (grayscale image). -/
structure QImg where
  h : Nat
  w : Nat
  pix : Nat → Nat → ℚ

/-- A 2-D RGB image with rational channel values. -/
structure RGBImg where
  h : Nat
  w : Nat
  pix : Nat → Nat → ℚ × ℚ × ℚ

/-- Read a pixel at signed coordinates, with default value `dflt` outside
the array (the OpenCV/scipy constant-border convention used by erosion
with `dflt = true` and dilation with `dflt = false`). -/
def pixI (img : BImg) (dflt : Bool) (y x : Int) : Bool :=
  if 0 ≤ y ∧ y < (img.h : Int) ∧ 0 ≤ x ∧ x < (img.w : Int) then
    img.pix y.toNat x.toNat
  else dflt

/-- Offsets covered by an all-ones `kh × kw` rectangular structuring
element anchored at its centre `(kh / 2, kw / 2)`. -/
def kerOffsets (kh kw : Nat) : List (Int × Int) :=
  (List.range kh).flatMap (fun i =>
    (List.range kw).map (fun j =>
      ((i : Int) - ((kh / 2 : Nat) : Int), (j : Int) - ((kw / 2 : Nat) : Int))))

/-- Binary erosion by an all-ones `kh × kw` structuring element: a pixel
survives iff every kernel position over it is foreground.  Outside the
image, pixels count as foreground (border value `true`), matching
`skimage.morphology.binary_erosion` and `cv2.erode` defaults. -/
def erode (img : BImg) (kh kw : Nat) : BImg :=
  ⟨img.h, img.w, fun y x =>
    if y < img.h ∧ x < img.w then
      (kerOffsets kh kw).all (fun o => pixI img true ((y : Int) + o.1) ((x : Int) + o.2))
    else false⟩

/-- Binary dilation by an all-ones `kh × kw` structuring element: a pixel
is set iff some kernel position over it is foreground.  Outside the
image, pixels count as background (border value `false`). -/
def dilate (img : BImg) (kh kw : Nat) : BImg :=
  ⟨img.h, img.w, fun y x =>
    if y < img.h ∧ x < img.w then
      (kerOffsets kh kw).any (fun o => pixI img false ((y : Int) + o.1) ((x : Int) + o.2))
    else false⟩

/-- Pixelwise logical negation (numpy `~image`). -/
def notImg (img : BImg) : BImg :=
  ⟨img.h, img.w, fun y x => if y < img.h ∧ x < img.w then !(img.pix y x) else false⟩

/-- Pixelwise logical OR (numpy `mask1 + mask2` on boolean arrays). -/
def orImg (a b : BImg) : BImg :=
  ⟨a.h, a.w, fun y x => a.pix y x || b.pix y x⟩

/-- All-false mask of the same shape (numpy `np.zeros_like(image)`). -/
def zerosLike (img : BImg) : BImg :=
  ⟨img.h, img.w, fun _ _ => false⟩

/-- Source `complete_structure_mask`: morphological opening of the binary
image with the fixed all-ones 5×5 structuring element
(`binary_dilation(binary_erosion(image, ones((5,5))), ones((5,5)))`). -/
def complete_structure_mask (image : BImg) : BImg :=
  dilate (erode image 5 5) 5 5

/-- A morphological opening iterated twice in the OpenCV sense of
`morphologyEx(…, MORPH_OPEN, kernel, iterations=2)`: erode twice, then
dilate twice, with a `kh × kw` all-ones kernel. -/
def opening2 (img : BImg) (kh kw : Nat) : BImg :=
  dilate (dilate (erode (erode img kh kw) kh kw) kh kw) kh kw

/-- Source `detect_horizontal_and_vertical_lines`: inverts the boolean
input (the `~image * 255` uint8 conversion), opens it twice with a
horizontal 1×`width` kernel and, independently, with a vertical
`height`×1 kernel, and returns the pixelwise OR of the two masks
(the `== 255` conversions back to bool are the identity on our model). -/
def detect_horizontal_and_vertical_lines (image : BImg) (max_depiction_size : Nat × Nat) : BImg :=
  let binarised_im := notImg image
  let structure_height := max_depiction_size.1
  let structure_width := max_depiction_size.2
  let horizontal_mask :=
    dilate (dilate (erode (erode binarised_im 1 structure_width) 1 structure_width)
      1 structure_width) 1 structure_width
  let vertical_mask :=
    dilate (dilate (erode (erode binarised_im structure_height 1) structure_height 1)
      structure_height 1) structure_height 1
  orImg horizontal_mask vertical_mask

/-- C8: `detect_horizontal_and_vertical_lines` returns exactly the logical
OR of two directional masks: the morphological opening (2 iterations) of
the binarised working image with a horizontal kernel of size
`(1, max_width)`, and the opening (2 iterations) with a vertical kernel
of size `(max_height, 1)`. -/
theorem detect_hv_lines_opening_or_spec (image : BImg) (mh mw : Nat) :
    detect_horizontal_and_vertical_lines image (mh, mw) =
      orImg (opening2 (notImg image) 1 mw) (opening2 (notImg image) mh 1) := rfl

/-- Every offset of the 5×5 kernel has its negation in the kernel
(the 5×5 structuring element is symmetric about its centre). -/
theorem kerOffsets_five_symm :
    ∀ o ∈ kerOffsets 5 5, (-o.1, -o.2) ∈ kerOffsets 5 5 := by decide

/-- C10: `complete_structure_mask` (a 5×5 morphological opening) is
anti-extensive: every pixel set in the output structure mask was already
set in the input mask — the builder never adds foreground pixels. -/
theorem complete_structure_mask_anti_extensive (img : BImg) (y x : Nat)
    (hpx : (complete_structure_mask img).pix y x = true) : img.pix y x = true := by
  unfold complete_structure_mask dilate at hpx
  simp only at hpx
  split at hpx
  case isFalse => exact absurd hpx (by simp)
  case isTrue hb =>
    rw [List.any_eq_true] at hpx
    obtain ⟨o, ho, hpo⟩ := hpx
    unfold pixI at hpo
    split at hpo
    case isFalse => exact absurd hpo (by simp)
    case isTrue hbo =>
      unfold erode at hpo
      simp only at hpo
      split at hpo
      case isFalse => exact absurd hpo (by simp)
      case isTrue hbe =>
        rw [List.all_eq_true] at hpo
        have hmem := kerOffsets_five_symm o ho
        have hval := hpo (-o.1, -o.2) hmem
        simp only at hval
        have he1 : (((y : Int) + o.1).toNat : Int) + -o.1 = (y : Int) := by omega
        have he2 : (((x : Int) + o.2).toNat : Int) + -o.2 = (x : Int) := by omega
        rw [he1, he2] at hval
        unfold pixI at hval
        rw [if_pos] at hval
        · simpa using hval
        · simp only [erode] at hb
          exact ⟨by omega, by exact_mod_cast hb.1, by omega, by exact_mod_cast hb.2⟩

/-- Source `find_equidistant_points`: the `num_points + 1` points at
interpolation parameter `t = i / num_points` for `i = 0 .. num_points`
on the segment from `(x1, y1)` to `(x2, y2)`. -/
def find_equidistant_points (x1 y1 x2 y2 : Int) (num_points : Nat) : List (ℚ × ℚ) :=
  (List.range (num_points + 1)).map (fun i =>
    let t : ℚ := (i : ℚ) / (num_points : ℚ)
    ((x1 : ℚ) * (1 - t) + (x2 : ℚ) * t, (y1 : ℚ) * (1 - t) + (y2 : ℚ) * t))

/-- Python `int(q)`: truncation toward zero. -/
def pyInt (q : ℚ) : Int :=
  if q < 0 then ⌈q⌉ else ⌊q⌋

/-- Numpy index semantics for a possibly negative index into an axis of
length `n`: a negative index counts from the end. -/
def pyIdx (n : Nat) (i : Int) : Nat :=
  (if i < 0 then i + (n : Int) else i).toNat

/-- The interior points sampled by `detect_lines` for one segment:
`find_equidistant_points(x1, y1, x2, y2, num_points=7)` with the first
and last entries sliced away (Python `points[1:-1]`). -/
def sampled_interior_points (x1 y1 x2 y2 : Int) : List (ℚ × ℚ) :=
  ((find_equidistant_points x1 y1 x2 y2 7).drop 1).dropLast

/-- The per-segment test of `detect_lines`: the loop over the sampled
interior points that sets `points_in_structure` and breaks at the first
point `(x, y)` with `segmentation_mask[int(y), int(x)]` true. -/
def line_in_structure (segmentation_mask : BImg) (x1 y1 x2 y2 : Int) : Bool :=
  (sampled_interior_points x1 y1 x2 y2).any (fun p =>
    segmentation_mask.pix (pyIdx segmentation_mask.h (pyInt p.2))
      (pyIdx segmentation_mask.w (pyInt p.1)))

/-- Source `detect_lines`.  The call to `cv2.HoughLinesP` on the inverted
working image (threshold 5, minimum segment length
`int(max(max_depiction_size) / 4)`, maximum gap 10) is modelled by the
oracle `houghP`, which receives the image and the two data-dependent
parameters and returns `none` (Python `None`) or the detected segments.
Rasterisation `cv2.line(mask, (x1, y1), (x2, y2), 255, 3)` is modelled by
the oracle `rast` applied to the endpoints and the thickness 3.  A
segment any of whose sampled interior points lies in
`segmentation_mask` is skipped; the rest are drawn into the zero mask. -/
def detect_lines (houghP : BImg → Nat → Nat → Option (List (Int × Int × Int × Int)))
    (rast : Int → Int → Int → Int → Nat → BImg → BImg)
    (image : BImg) (max_depiction_size : Nat × Nat) (segmentation_mask : BImg) : BImg :=
  let inverted := notImg image
  let lines := houghP inverted (max max_depiction_size.1 max_depiction_size.2 / 4) 10
  let exclusion_mask := zerosLike image
  match lines with
  | none => exclusion_mask
  | some ls =>
      ls.foldl (fun acc l =>
        if line_in_structure segmentation_mask l.1 l.2.1 l.2.2.1 l.2.2.2 then acc
        else rast l.1 l.2.1 l.2.2.1 l.2.2.2 3 acc) exclusion_mask

/-- C9: for endpoints (0,0)–(10,0) and 5 divisions, the produced points
are exactly (0,0), (2,0), (4,0), (6,0), (8,0), (10,0), in that order. -/
theorem find_equidistant_points_example :
    find_equidistant_points 0 0 10 0 5 =
      [(0, 0), (2, 0), (4, 0), (6, 0), (8, 0), (10, 0)] := by
  have h6 : List.range 6 = [0, 1, 2, 3, 4, 5] := rfl
  simp only [find_equidistant_points, h6, List.map_cons, List.map_nil]
  norm_num

/-- C2 counterexample: for the concrete segment (0,0)–(7,0), the list of
interior points sampled by `detect_lines` has 6 elements, not 7. -/
theorem sampled_points_count_ne_seven :
    ¬ (sampled_interior_points 0 0 7 0).length = 7 := by decide

/-- C2 (amended): for every detected segment, exactly 6 equally spaced
interior points strictly between the endpoints — at interpolation
parameter t = i/7 for i = 1..6, excluding i = 0 and i = 7 — are sampled,
and the segment's candidate-mask test holds iff one of these sampled
points lies in the candidate (segmentation) mask. -/
theorem sampled_interior_points_spec (x1 y1 x2 y2 : Int) (mask : BImg) :
    sampled_interior_points x1 y1 x2 y2 =
      (List.range 6).map (fun i =>
        ((x1 : ℚ) * (1 - ((i : ℚ) + 1) / 7) + (x2 : ℚ) * (((i : ℚ) + 1) / 7),
         (y1 : ℚ) * (1 - ((i : ℚ) + 1) / 7) + (y2 : ℚ) * (((i : ℚ) + 1) / 7))) ∧
    (line_in_structure mask x1 y1 x2 y2 = true ↔
      ∃ p ∈ sampled_interior_points x1 y1 x2 y2,
        mask.pix (pyIdx mask.h (pyInt p.2)) (pyIdx mask.w (pyInt p.1)) = true) := by
  constructor
  · have h8 : List.range 8 = [0, 1, 2, 3, 4, 5, 6, 7] := rfl
    have h6 : List.range 6 = [0, 1, 2, 3, 4, 5] := rfl
    simp only [sampled_interior_points, find_equidistant_points, h8, h6,
      List.map_cons, List.map_nil, List.drop, List.dropLast]
    norm_num
  · rw [line_in_structure, List.any_eq_true]

/-- Skip-or-draw folds are folds over the filtered list: the generic shape
of the `detect_lines` segment loop. -/
theorem foldl_skip_eq_foldl_filter {α β : Type} (p : β → Bool) (f : α → β → α) :
    ∀ (l : List β) (init : α),
      l.foldl (fun acc b => if p b then acc else f acc b) init =
        (l.filter (fun b => !(p b))).foldl f init := by
  intro l
  induction l with
  | nil => intro init; rfl
  | cons b l ih =>
      intro init
      by_cases hb : p b = true
      · simp [List.filter, hb, ih]
      · simp only [Bool.not_eq_true] at hb
        simp [List.filter, hb, ih]

/-- C4: when the line transform returns segments, the exclusion mask is
obtained by rasterising (with thickness 3) exactly those segments none of
whose sampled interior points lies in the candidate mask, starting from
the all-false mask; a segment with any sampled point inside the candidate
mask contributes nothing, and the per-segment decision is exactly "any
sampled point inside" (no majority vote). -/
theorem detect_lines_filter_spec
    (houghP : BImg → Nat → Nat → Option (List (Int × Int × Int × Int)))
    (rast : Int → Int → Int → Int → Nat → BImg → BImg)
    (image : BImg) (sz : Nat × Nat) (mask : BImg)
    (ls : List (Int × Int × Int × Int))
    (hl : houghP (notImg image) (max sz.1 sz.2 / 4) 10 = some ls) :
    detect_lines houghP rast image sz mask =
      (ls.filter (fun l => !(line_in_structure mask l.1 l.2.1 l.2.2.1 l.2.2.2))).foldl
        (fun acc l => rast l.1 l.2.1 l.2.2.1 l.2.2.2 3 acc) (zerosLike image) ∧
    ∀ l ∈ ls, (line_in_structure mask l.1 l.2.1 l.2.2.1 l.2.2.2 = true ↔
      ∃ p ∈ sampled_interior_points l.1 l.2.1 l.2.2.1 l.2.2.2,
        mask.pix (pyIdx mask.h (pyInt p.2)) (pyIdx mask.w (pyInt p.1)) = true) := by
  constructor
  · rw [detect_lines]
    simp only [hl]
    exact foldl_skip_eq_foldl_filter _ _ ls (zerosLike image)
  · intro l _
    rw [line_in_structure, List.any_eq_true]

/-- C7: when the line transform detects no segments, `detect_lines`
returns the all-false mask with the same (height, width) shape as its
input image. -/
theorem detect_lines_no_lines_spec
    (houghP : BImg → Nat → Nat → Option (List (Int × Int × Int × Int)))
    (rast : Int → Int → Int → Int → Nat → BImg → BImg)
    (image : BImg) (sz : Nat × Nat) (mask : BImg)
    (hl : houghP (notImg image) (max sz.1 sz.2 / 4) 10 = none) :
    detect_lines houghP rast image sz mask = zerosLike image ∧
    (detect_lines houghP rast image sz mask).h = image.h ∧
    (detect_lines houghP rast image sz mask).w = image.w ∧
    ∀ y x, (detect_lines houghP rast image sz mask).pix y x = false := by
  have hz : detect_lines houghP rast image sz mask = zerosLike image := by
    rw [detect_lines]
    simp only [hl]
  refine ⟨hz, ?_, ?_, ?_⟩
  · rw [hz]; rfl
  · rw [hz]; rfl
  · intro y x; rw [hz]; rfl

/-- Coordinates `(y, x)` of the true pixels of a mask, in row-major order:
the pairs `zip(*np.where(mask))`. -/
def trueCoords (m : BImg) : List (Nat × Nat) :=
  (List.range m.h).flatMap (fun y =>
    ((List.range m.w).filter (fun x => m.pix y x)).map (fun x => (y, x)))

/-- The bounding box `(yMin, yMax, xMin, xMax)` of the true pixels of a
mask: the `min()` and `max()` of the two `np.where` coordinate arrays.
On a mask with no true pixels these reductions raise `ValueError` in the
source, modelled by `none`. -/
def bbox (m : BImg) : Option (Nat × Nat × Nat × Nat) :=
  match trueCoords m with
  | [] => none
  | c :: cs =>
      some ((cs.map Prod.fst).foldl min c.1, (cs.map Prod.fst).foldl max c.1,
            (cs.map Prod.snd).foldl min c.2, (cs.map Prod.snd).foldl max c.2)

/-- The body of the seed-selection loop of `get_seeds` for one
intersection coordinate `p = (y, x)`: skip `p` when it lies outside the
inner-80% window or is marked in the exclusion mask; keep it as `(x, y)`
otherwise. -/
def seedFilter (x_min_limit x_max_limit y_min_limit y_max_limit : ℚ)
    (exclusion_mask : BImg) (p : Nat × Nat) : Option (Nat × Nat) :=
  if ((p.2 : ℚ)) < x_min_limit then none
  else if x_max_limit < ((p.2 : ℚ)) then none
  else if ((p.1 : ℚ)) < y_min_limit then none
  else if y_max_limit < ((p.1 : ℚ)) then none
  else if exclusion_mask.pix p.1 p.2 then none
  else some (p.2, p.1)

/-- Source `get_seeds`.  The undefined bounding box of an all-false mask
(numpy `ValueError` from `max()` on an empty array) is modelled by
`none`.  The limits `min + diff / 10` and `max - diff / 10` are computed
in exact rational arithmetic (the Python float computation is exact to
within less than one pixel for any in-range coordinates, so the integer
comparisons agree).  The source intersects two hash sets of coordinates
and iterates the result in unspecified order; the model iterates the same
set in row-major order, so the returned collection of seeds is the same. -/
def get_seeds (image_array mask_array exclusion_mask : BImg) : Option (List (Nat × Nat)) :=
  match bbox mask_array with
  | none => none
  | some (yMin, yMax, xMin, xMax) =>
      let x_min_limit : ℚ := (xMin : ℚ) + ((xMax : ℚ) - (xMin : ℚ)) / 10
      let x_max_limit : ℚ := (xMax : ℚ) - ((xMax : ℚ) - (xMin : ℚ)) / 10
      let y_min_limit : ℚ := (yMin : ℚ) + ((yMax : ℚ) - (yMin : ℚ)) / 10
      let y_max_limit : ℚ := (yMax : ℚ) - ((yMax : ℚ) - (yMin : ℚ)) / 10
      let intersection_coordinates :=
        (trueCoords mask_array).filter (fun p => !(image_array.pix p.1 p.2))
      some (intersection_coordinates.filterMap
        (seedFilter x_min_limit x_max_limit y_min_limit y_max_limit exclusion_mask))

/-- A coordinate listed by `trueCoords` is a true pixel of the mask. -/
theorem mem_trueCoords {m : BImg} {p : Nat × Nat} (hp : p ∈ trueCoords m) :
    m.pix p.1 p.2 = true := by
  unfold trueCoords at hp
  rw [List.mem_flatMap] at hp
  obtain ⟨y, _, hy⟩ := hp
  rw [List.mem_map] at hy
  obtain ⟨x, hx, rfl⟩ := hy
  exact (List.mem_filter.mp hx).2

/-- What it takes for the seed-selection step to keep a coordinate. -/
theorem seedFilter_eq_some {xl xr yl yr : ℚ} {excl : BImg} {p q : Nat × Nat}
    (hf : seedFilter xl xr yl yr excl p = some q) :
    q = (p.2, p.1) ∧ xl ≤ (p.2 : ℚ) ∧ (p.2 : ℚ) ≤ xr ∧ yl ≤ (p.1 : ℚ) ∧
      (p.1 : ℚ) ≤ yr ∧ excl.pix p.1 p.2 = false := by
  unfold seedFilter at hf
  split at hf
  · exact absurd hf (by simp)
  split at hf
  · exact absurd hf (by simp)
  split at hf
  · exact absurd hf (by simp)
  split at hf
  · exact absurd hf (by simp)
  split at hf
  · exact absurd hf (by simp)
  rename_i h1 h2 h3 h4 h5
  refine ⟨(Option.some.inj hf).symm, not_lt.mp h1, not_lt.mp h2, not_lt.mp h3,
    not_lt.mp h4, ?_⟩
  simpa using h5

/-- C1: the source does not guard the empty-mask precondition: on a
region-of-interest mask with no true pixels, `get_seeds` hits the
undefined bounding box (`ValueError` from numpy `max()` on an empty
array, modelled by `none`) instead of returning the empty seed list the
specification requires, for any ink image and exclusion mask. -/
theorem get_seeds_empty_mask_none (image exclusion : BImg) (h w : Nat) :
    get_seeds image ⟨h, w, fun _ _ => false⟩ exclusion = none := by
  have ht : trueCoords ⟨h, w, fun _ _ => false⟩ = [] := by
    unfold trueCoords
    simp
  have hb : bbox ⟨h, w, fun _ _ => false⟩ = none := by
    unfold bbox
    rw [ht]
  unfold get_seeds
  rw [hb]

/-- A 1×1 binarised image whose only pixel is ink (false = non-background,
the convention `binarize_image` actually produces). -/
def imgInk1 : BImg := ⟨1, 1, fun _ _ => false⟩

/-- A 1×1 all-true region-of-interest mask. -/
def maskAll1 : BImg := ⟨1, 1, fun _ _ => true⟩

/-- A 1×1 all-false exclusion mask. -/
def exclNone1 : BImg := ⟨1, 1, fun _ _ => false⟩

/-- On the 1×1 instance, `get_seeds` returns exactly the seed (0, 0). -/
theorem get_seeds_unit_eval : get_seeds imgInk1 maskAll1 exclNone1 = some [(0, 0)] := by
  have hb : bbox maskAll1 = some (0, 0, 0, 0) := by decide
  have hi : List.filter (fun p => !(imgInk1.pix p.1 p.2)) (trueCoords maskAll1) =
      [(0, 0)] := by decide
  simp only [get_seeds, hb]
  rw [hi]
  norm_num [seedFilter, List.filterMap_cons, List.filterMap_nil, exclNone1]

/-- C3 counterexample: on a concrete input, `get_seeds` returns a seed at
a pixel where its first argument is `false`, refuting the reading that
the first argument is an ink mask with convention true = ink at every
returned seed: the source's input convention is true = background, and
`get_seeds` inverts it. -/
theorem get_seeds_input_convention_cex :
    ¬ (∀ (x y : Nat) (res : List (Nat × Nat)),
        get_seeds imgInk1 maskAll1 exclNone1 = some res → (x, y) ∈ res →
        imgInk1.pix y x = true) := by
  intro hcl
  have h := hcl 0 0 [(0, 0)] get_seeds_unit_eval (by simp)
  simp [imgInk1] at h

/-- C3 (amended): `get_seeds` computes the set-intersection of ink pixels
and region-of-interest pixels, where ink means `false` in the input
image array (the array's convention is true = background; the source
inverts it with `np.invert`): every returned seed `(x, y)` is a pixel at
which the image array is `false` and the region-of-interest mask is
`true`. -/
theorem get_seeds_seeds_are_ink_and_mask (image mask excl : BImg)
    (res : List (Nat × Nat)) (x y : Nat)
    (hres : get_seeds image mask excl = some res) (hmem : (x, y) ∈ res) :
    image.pix y x = false ∧ mask.pix y x = true := by
  simp only [get_seeds] at hres
  cases hb : bbox mask with
  | none => rw [hb] at hres; exact absurd hres (by simp)
  | some q =>
      obtain ⟨yMin, yMax, xMin, xMax⟩ := q
      rw [hb] at hres
      simp only [Option.some.injEq] at hres
      subst hres
      rw [List.mem_filterMap] at hmem
      obtain ⟨p, hp, hf⟩ := hmem
      rw [List.mem_filter] at hp
      obtain ⟨hpt, hpi⟩ := hp
      obtain ⟨hq, -, -, -, -, -⟩ := seedFilter_eq_some hf
      rw [Prod.mk.injEq] at hq
      obtain ⟨hx, hy⟩ := hq
      subst hx
      subst hy
      exact ⟨by simpa using hpi, mem_trueCoords hpt⟩

/-- C3 witness: the amended theorem applied to the 1×1 instance. -/
theorem get_seeds_seeds_are_ink_and_mask_witness :
    imgInk1.pix 0 0 = false ∧ maskAll1.pix 0 0 = true :=
  get_seeds_seeds_are_ink_and_mask imgInk1 maskAll1 exclNone1 [(0, 0)] 0 0
    get_seeds_unit_eval (by simp)


/-- Folding `min` over a list: the result is a lower bound of the initial
value and of every element, and is attained. -/
theorem foldl_min_spec (l : List Nat) (a : Nat) :
    l.foldl min a ≤ a ∧ (∀ x ∈ l, l.foldl min a ≤ x) ∧
      (l.foldl min a = a ∨ l.foldl min a ∈ l) := by
  induction l generalizing a with
  | nil => simp
  | cons b l ih =>
      obtain ⟨h1, h2, h3⟩ := ih (min a b)
      simp only [List.foldl_cons]
      refine ⟨by omega, ?_, ?_⟩
      · intro x hx
        rcases List.mem_cons.mp hx with rfl | hx
        · omega
        · exact h2 x hx
      · rcases h3 with h | h
        · by_cases hab : a ≤ b
          · left
            rw [h, Nat.min_eq_left hab]
          · right
            rw [h, Nat.min_eq_right (by omega)]
            exact List.mem_cons_self b l
        · right
          exact List.mem_cons_of_mem b h

/-- Folding `max` over a list: the result is an upper bound of the initial
value and of every element, and is attained. -/
theorem foldl_max_spec (l : List Nat) (a : Nat) :
    a ≤ l.foldl max a ∧ (∀ x ∈ l, x ≤ l.foldl max a) ∧
      (l.foldl max a = a ∨ l.foldl max a ∈ l) := by
  induction l generalizing a with
  | nil => simp
  | cons b l ih =>
      obtain ⟨h1, h2, h3⟩ := ih (max a b)
      simp only [List.foldl_cons]
      refine ⟨by omega, ?_, ?_⟩
      · intro x hx
        rcases List.mem_cons.mp hx with rfl | hx
        · omega
        · exact h2 x hx
      · rcases h3 with h | h
        · by_cases hab : b ≤ a
          · left
            rw [h, Nat.max_eq_left hab]
          · right
            rw [h, Nat.max_eq_right (by omega)]
            exact List.mem_cons_self b l
        · right
          exact List.mem_cons_of_mem b h

/-- The fold computing a bounding-box minimum evaluates to any value that
is both attained by the projection `f` and a lower bound for it. -/
theorem foldl_min_proj_eq {α : Type} (f : α → Nat) (c : α) (cs : List α) (v : Nat)
    (hv : ∃ p ∈ c :: cs, f p = v) (hlb : ∀ p ∈ c :: cs, v ≤ f p) :
    (cs.map f).foldl min (f c) = v := by
  obtain ⟨hs1, hs2, hs3⟩ := foldl_min_spec (cs.map f) (f c)
  have hub : v ≤ (cs.map f).foldl min (f c) := by
    rcases hs3 with h | h
    · rw [h]
      exact hlb c (List.mem_cons_self c cs)
    · rw [List.mem_map] at h
      obtain ⟨q, hq, hqe⟩ := h
      rw [← hqe]
      exact hlb q (List.mem_cons_of_mem _ hq)
  have hle : (cs.map f).foldl min (f c) ≤ v := by
    obtain ⟨p, hp, hpe⟩ := hv
    rcases List.mem_cons.mp hp with rfl | hp
    · rw [← hpe]
      exact hs1
    · rw [← hpe]
      exact hs2 (f p) (List.mem_map_of_mem f hp)
  omega

/-- The fold computing a bounding-box maximum evaluates to any value that
is both attained by the projection `f` and an upper bound for it. -/
theorem foldl_max_proj_eq {α : Type} (f : α → Nat) (c : α) (cs : List α) (v : Nat)
    (hv : ∃ p ∈ c :: cs, f p = v) (hub : ∀ p ∈ c :: cs, f p ≤ v) :
    (cs.map f).foldl max (f c) = v := by
  obtain ⟨hs1, hs2, hs3⟩ := foldl_max_spec (cs.map f) (f c)
  have hge : v ≤ (cs.map f).foldl max (f c) := by
    obtain ⟨p, hp, hpe⟩ := hv
    rcases List.mem_cons.mp hp with rfl | hp
    · rw [← hpe]
      exact hs1
    · rw [← hpe]
      exact hs2 (f p) (List.mem_map_of_mem f hp)
  have hle : (cs.map f).foldl max (f c) ≤ v := by
    rcases hs3 with h | h
    · rw [h]
      exact hub c (List.mem_cons_self c cs)
    · rw [List.mem_map] at h
      obtain ⟨q, hq, hqe⟩ := h
      rw [← hqe]
      exact hub q (List.mem_cons_of_mem _ hq)
  omega

/-- Membership in `trueCoords`: exactly the in-bounds true pixels. -/
theorem mem_trueCoords_iff (m : BImg) (py px : Nat) :
    (py, px) ∈ trueCoords m ↔ py < m.h ∧ px < m.w ∧ m.pix py px = true := by
  unfold trueCoords
  constructor
  · intro hp
    rw [List.mem_flatMap] at hp
    obtain ⟨y, hy, hmem⟩ := hp
    rw [List.mem_map] at hmem
    obtain ⟨x, hx, hxy⟩ := hmem
    rw [List.mem_filter] at hx
    obtain ⟨h1, h2⟩ := Prod.mk.injEq .. ▸ hxy
    subst h1
    subst h2
    exact ⟨List.mem_range.mp hy, List.mem_range.mp hx.1, hx.2⟩
  · intro ⟨h1, h2, h3⟩
    rw [List.mem_flatMap]
    exact ⟨py, List.mem_range.mpr h1,
      List.mem_map.mpr ⟨px, List.mem_filter.mpr ⟨List.mem_range.mpr h2, h3⟩, rfl⟩⟩

/-- The bounding box of a mask equals any quadruple of attained extremes. -/
theorem bbox_eq (m : BImg) (yn yx xn xx : Nat)
    (h1 : ∃ p ∈ trueCoords m, p.1 = yn) (h2 : ∃ p ∈ trueCoords m, p.1 = yx)
    (h3 : ∃ p ∈ trueCoords m, p.2 = xn) (h4 : ∃ p ∈ trueCoords m, p.2 = xx)
    (hb : ∀ p ∈ trueCoords m, yn ≤ p.1 ∧ p.1 ≤ yx ∧ xn ≤ p.2 ∧ p.2 ≤ xx) :
    bbox m = some (yn, yx, xn, xx) := by
  unfold bbox
  cases htc : trueCoords m with
  | nil =>
      rw [htc] at h1
      simp at h1
  | cons c cs =>
      rw [htc] at h1 h2 h3 h4 hb
      change some ((cs.map Prod.fst).foldl min c.1, (cs.map Prod.fst).foldl max c.1,
        (cs.map Prod.snd).foldl min c.2, (cs.map Prod.snd).foldl max c.2) =
        some (yn, yx, xn, xx)
      rw [foldl_min_proj_eq Prod.fst c cs yn h1 (fun p hp => (hb p hp).1)]
      rw [foldl_max_proj_eq Prod.fst c cs yx h2 (fun p hp => (hb p hp).2.1)]
      rw [foldl_min_proj_eq Prod.snd c cs xn h3 (fun p hp => (hb p hp).2.2.1)]
      rw [foldl_max_proj_eq Prod.snd c cs xx h4 (fun p hp => (hb p hp).2.2.2)]

/-- Filtering distributes over a flattened map of lists. -/
theorem filter_flatMap {α β : Type} (l : List α) (g : α → List β) (p : β → Bool) :
    (l.flatMap g).filter p = l.flatMap (fun a => (g a).filter p) := by
  induction l with
  | nil => rfl
  | cons a l ih => simp [List.flatMap_cons, List.filter_append, ih]

/-- A flattened map over `range n` whose rows are all empty except row `k`
flattens to row `k` alone. -/
theorem flatMap_range_single {α : Type} (f : Nat → List α) (k : Nat) (s : List α)
    (hk : f k = s) (h0 : ∀ y, y ≠ k → f y = []) :
    ∀ n, k < n → (List.range n).flatMap f = s := by
  intro n
  induction n with
  | zero => intro h; exact absurd h (by omega)
  | succ n ih =>
      intro hkn
      rw [List.range_succ, List.flatMap_append]
      by_cases hlt : k < n
      · rw [ih hlt]
        have hn : f n = [] := h0 n (by omega)
        simp [hn]
      · have hkn2 : k = n := by omega
        subst hkn2
        have hnil : (List.range k).flatMap f = [] := by
          rw [List.flatMap_eq_nil_iff]
          intro y hy
          exact h0 y (by have := List.mem_range.mp hy; omega)
        simp [hnil, hk]

/-- The filled 100×100 region-of-interest square. -/
def maskFull100 : BImg := ⟨100, 100, fun _ _ => true⟩

/-- A 100×100 binarised image with a single ink pixel at the centre
coordinate (50, 50) (ink = `false` under the source's convention). -/
def inkCenter100 : BImg := ⟨100, 100, fun y x => !(y == 50 && x == 50)⟩

/-- A 100×100 binarised image with a single ink pixel at the extreme
corner (0, 0). -/
def inkCorner100 : BImg := ⟨100, 100, fun y x => !(y == 0 && x == 0)⟩

/-- A 100×100 all-false exclusion mask. -/
def exclNone100 : BImg := ⟨100, 100, fun _ _ => false⟩

/-- The true coordinates of the filled square are the full grid. -/
theorem trueCoords_maskFull100 :
    trueCoords maskFull100 =
      (List.range 100).flatMap (fun y => (List.range 100).map (fun x => (y, x))) := by
  unfold trueCoords maskFull100
  simp

/-- The bounding box of the filled 100×100 square. -/
theorem bbox_maskFull100 : bbox maskFull100 = some (0, 99, 0, 99) := by
  apply bbox_eq
  · exact ⟨(0, 0), (mem_trueCoords_iff _ 0 0).mpr (by simp [maskFull100]), rfl⟩
  · exact ⟨(99, 0), (mem_trueCoords_iff _ 99 0).mpr (by simp [maskFull100]), rfl⟩
  · exact ⟨(0, 0), (mem_trueCoords_iff _ 0 0).mpr (by simp [maskFull100]), rfl⟩
  · exact ⟨(0, 99), (mem_trueCoords_iff _ 0 99).mpr (by simp [maskFull100]), rfl⟩
  · intro p hp
    obtain ⟨py, px⟩ := p
    have := (mem_trueCoords_iff _ py px).mp hp
    simp only [maskFull100] at this
    exact ⟨by omega, by omega, by omega, by omega⟩

/-- The ink ∩ mask intersection on the centre instance is the single
coordinate (50, 50). -/
theorem filter_inkCenter100 :
    List.filter (fun p => !(inkCenter100.pix p.1 p.2)) (trueCoords maskFull100) =
      [(50, 50)] := by
  rw [trueCoords_maskFull100, filter_flatMap]
  apply flatMap_range_single _ 50 _ ?_ ?_ 100 (by norm_num)
  · decide
  · intro y hy
    rw [List.filter_eq_nil_iff]
    intro a ha
    rw [List.mem_map] at ha
    obtain ⟨x, hx, hax⟩ := ha
    subst hax
    simp [inkCenter100, hy]

/-- The ink ∩ mask intersection on the corner instance is the single
coordinate (0, 0). -/
theorem filter_inkCorner100 :
    List.filter (fun p => !(inkCorner100.pix p.1 p.2)) (trueCoords maskFull100) =
      [(0, 0)] := by
  rw [trueCoords_maskFull100, filter_flatMap]
  apply flatMap_range_single _ 0 _ ?_ ?_ 100 (by norm_num)
  · decide
  · intro y hy
    rw [List.filter_eq_nil_iff]
    intro a ha
    rw [List.mem_map] at ha
    obtain ⟨x, hx, hax⟩ := ha
    subst hax
    simp [inkCorner100, hy]

/-- C6: every seed returned by `get_seeds` lies inside the
region-of-interest bounding box shrunk by 10% of its extent on each side
(the inner-80% window) and is not marked in the exclusion mask; in
particular, on the filled 100×100 mask with a single ink pixel at the
centre (50, 50) the result is exactly that one coordinate, and with the
single ink pixel at the corner (0, 0) the result is empty. -/
theorem get_seeds_inner_window_spec :
    (∀ (image mask excl : BImg) (res : List (Nat × Nat)) (yMin yMax xMin xMax x y : Nat),
      bbox mask = some (yMin, yMax, xMin, xMax) →
      get_seeds image mask excl = some res → (x, y) ∈ res →
      ((xMin : ℚ) + ((xMax : ℚ) - (xMin : ℚ)) / 10 ≤ (x : ℚ) ∧
       (x : ℚ) ≤ (xMax : ℚ) - ((xMax : ℚ) - (xMin : ℚ)) / 10 ∧
       (yMin : ℚ) + ((yMax : ℚ) - (yMin : ℚ)) / 10 ≤ (y : ℚ) ∧
       (y : ℚ) ≤ (yMax : ℚ) - ((yMax : ℚ) - (yMin : ℚ)) / 10 ∧
       excl.pix y x = false)) ∧
    get_seeds inkCenter100 maskFull100 exclNone100 = some [(50, 50)] ∧
    get_seeds inkCorner100 maskFull100 exclNone100 = some [] := by
  refine ⟨?_, ?_, ?_⟩
  · intro image mask excl res yMin yMax xMin xMax x y hb hres hmem
    simp only [get_seeds] at hres
    rw [hb] at hres
    simp only [Option.some.injEq] at hres
    subst hres
    rw [List.mem_filterMap] at hmem
    obtain ⟨p, hp, hf⟩ := hmem
    obtain ⟨hq, hxl, hxr, hyl, hyr, he⟩ := seedFilter_eq_some hf
    rw [Prod.mk.injEq] at hq
    obtain ⟨hx, hy⟩ := hq
    subst hx
    subst hy
    exact ⟨hxl, hxr, hyl, hyr, he⟩
  · simp only [get_seeds, bbox_maskFull100]
    rw [filter_inkCenter100]
    norm_num [seedFilter, List.filterMap_cons, exclNone100]
  · simp only [get_seeds, bbox_maskFull100]
    rw [filter_inkCorner100]
    norm_num [seedFilter, List.filterMap_cons]

/-- C6 witness: the inner-window bound applied to the seed (50, 50)
returned on the concrete 100×100 instance. -/
theorem get_seeds_inner_window_spec_witness :
    (((0 : Nat) : ℚ) + (((99 : Nat) : ℚ) - ((0 : Nat) : ℚ)) / 10 ≤ ((50 : Nat) : ℚ) ∧
     ((50 : Nat) : ℚ) ≤ ((99 : Nat) : ℚ) - (((99 : Nat) : ℚ) - ((0 : Nat) : ℚ)) / 10 ∧
     ((0 : Nat) : ℚ) + (((99 : Nat) : ℚ) - ((0 : Nat) : ℚ)) / 10 ≤ ((50 : Nat) : ℚ) ∧
     ((50 : Nat) : ℚ) ≤ ((99 : Nat) : ℚ) - (((99 : Nat) : ℚ) - ((0 : Nat) : ℚ)) / 10 ∧
     exclNone100.pix 50 50 = false) :=
  get_seeds_inner_window_spec.1 inkCenter100 maskFull100 exclNone100 [(50, 50)]
    0 99 0 99 50 50 bbox_maskFull100 get_seeds_inner_window_spec.2.1 (by simp)

/-- Source `binarize_image`.  The skimage calls are oracle parameters:
`rgb2grayF` models `rgb2gray` (luminosity-weighted grayscale) and
`otsuF` models `threshold_otsu`.  The Python `threshold` argument is
either the string "otsu" (modelled `none`, the default) or a numeric
value (`some t`).  The result is `true` exactly where the grayscale
intensity strictly exceeds the threshold. -/
def binarize_image (rgb2grayF : RGBImg → QImg) (otsuF : QImg → ℚ)
    (image_array : RGBImg) (threshold : Option ℚ) : BImg :=
  let grayscale := rgb2grayF image_array
  let thr := match threshold with
    | none => otsuF grayscale
    | some t => t
  ⟨grayscale.h, grayscale.w, fun y x =>
    if y < grayscale.h ∧ x < grayscale.w then decide (thr < grayscale.pix y x) else false⟩

/-- Source `detect_chemical_structures`: binarize, build the structure
mask, estimate the depiction size as a tenth of the image shape, run the
geometric line detector on the inverted structure mask with the structure
mask as candidate, and return both masks. -/
def detect_chemical_structures (rgb2grayF : RGBImg → QImg) (otsuF : QImg → ℚ)
    (houghP : BImg → Nat → Nat → Option (List (Int × Int × Int × Int)))
    (rast : Int → Int → Int → Int → Nat → BImg → BImg)
    (image : RGBImg) : BImg × BImg :=
  let binarized_image := binarize_image rgb2grayF otsuF image none
  let structure_mask := complete_structure_mask binarized_image
  let max_depiction_size := (image.h / 10, image.w / 10)
  let exclusion_mask :=
    detect_lines houghP rast (notImg structure_mask) max_depiction_size structure_mask
  (structure_mask, exclusion_mask)

/-- C5: for every input image, `detect_chemical_structures` returns the
pair whose first component is the structure mask
`complete_structure_mask (binarize_image image)` (Otsu default
threshold) and whose second component is `detect_lines` applied to the
inverted structure mask, the size estimate (height/10, width/10), and
the structure mask as the candidate mask. -/
theorem detect_chemical_structures_spec (rgb2grayF : RGBImg → QImg) (otsuF : QImg → ℚ)
    (houghP : BImg → Nat → Nat → Option (List (Int × Int × Int × Int)))
    (rast : Int → Int → Int → Int → Nat → BImg → BImg)
    (image : RGBImg) :
    detect_chemical_structures rgb2grayF otsuF houghP rast image =
      (complete_structure_mask (binarize_image rgb2grayF otsuF image none),
       detect_lines houghP rast
         (notImg (complete_structure_mask (binarize_image rgb2grayF otsuF image none)))
         (image.h / 10, image.w / 10)
         (complete_structure_mask (binarize_image rgb2grayF otsuF image none))) := rfl

/-- A line-transform oracle detecting no segments. -/
def houghEmpty : BImg → Nat → Nat → Option (List (Int × Int × Int × Int)) :=
  fun _ _ _ => none

/-- A line-transform oracle detecting the single segment (0,0)–(3,0). -/
def houghOne : BImg → Nat → Nat → Option (List (Int × Int × Int × Int)) :=
  fun _ _ _ => some [(0, 0, 3, 0)]

/-- A rasteriser oracle that paints the whole mask. -/
def rastFull : Int → Int → Int → Int → Nat → BImg → BImg :=
  fun _ _ _ _ _ m => ⟨m.h, m.w, fun _ _ => true⟩

/-- A concrete 4×4 all-false image. -/
def img4 : BImg := ⟨4, 4, fun _ _ => false⟩

/-- C4 witness: the segment-filter characterisation applied to a concrete
single-segment detection. -/
theorem detect_lines_filter_spec_witness :
    detect_lines houghOne rastFull img4 (4, 4) img4 =
      (([((0 : Int), (0 : Int), (3 : Int), (0 : Int))].filter
          (fun l => !(line_in_structure img4 l.1 l.2.1 l.2.2.1 l.2.2.2))).foldl
        (fun acc l => rastFull l.1 l.2.1 l.2.2.1 l.2.2.2 3 acc) (zerosLike img4)) :=
  (detect_lines_filter_spec houghOne rastFull img4 (4, 4) img4 [(0, 0, 3, 0)] rfl).1

/-- C7 witness: the no-segments case applied to a concrete oracle. -/
theorem detect_lines_no_lines_spec_witness :
    detect_lines houghEmpty rastFull img4 (4, 4) img4 = zerosLike img4 :=
  (detect_lines_no_lines_spec houghEmpty rastFull img4 (4, 4) img4 rfl).1

/-- A concrete 5×5 all-true image: its 5×5 opening keeps the centre set. -/
def imgAll5 : BImg := ⟨5, 5, fun _ _ => true⟩

/-- C10 witness: anti-extensivity applied at the centre pixel of the
all-true 5×5 image, whose opening is `true` there. -/
theorem complete_structure_mask_anti_extensive_witness : imgAll5.pix 2 2 = true :=
  complete_structure_mask_anti_extensive imgAll5 2 2 (by decide)
